import Mathlib

/-!
Verification of the avro driver library's interrupt-safe I/O core.

The definitions below are shallow embeddings of the C sources:
  * `src/include/avro/circular_buffer.h` (ring buffer),
  * `src/include/avro/twi.h` (two-wire bus transaction engine),
  * `src/include/avro/usart.h` (delimited stream reader).

Machine `uint8_t` values are modelled as `Nat`; wherever the C code
converts a (possibly negative) `int` expression to `uint8_t`, the
conversion is made explicit with `u8` (reduction modulo 256).  Byte
memory (`uint8_t *`) is modelled as `List Nat`, and `memcpy` as a list
splice.  Fallible operations (C `assert`) return `Option`.
-/

/-- C conversion of an `int` expression to `uint8_t`: reduce modulo 256. -/
def u8 (x : Int) : Nat := (x % 256).toNat

/-- The C struct `circular_buffer_t` from `circular_buffer.h`: backing
storage `buf` of length `len`, with live data between `start` and
`end` (named `end_` here because `end` is reserved in Lean). -/
structure circular_buffer_t where
  start : Nat
  end_ : Nat
  buf : List Nat
  len : Nat
deriving DecidableEq, Repr

/-- The C enum `circular_buffer_status_t`. -/
inductive circular_buffer_status_t where
  | CIRCULAR_BUFFER_OK
  | CIRCULAR_BUFFER_FULL
deriving DecidableEq, Repr

open circular_buffer_status_t

/-- `memcpy(dst + pos, src, n)` on list-modelled byte memory. -/
def memcpy (dst : List Nat) (pos : Nat) (src : List Nat) (n : Nat) : List Nat :=
  dst.take pos ++ src.take n ++ dst.drop (pos + n)

/-- `circular_buffer_len` from `circular_buffer.h`. -/
def circular_buffer_len (b : circular_buffer_t) : Nat :=
  let bstart := b.start
  let bend := b.end_
  if bstart ≤ bend then bend - bstart
  else (b.len - bstart) + bend

/-- `circular_buffer_write` from `circular_buffer.h`.  Returns the
status together with the updated buffer (the C function mutates `buf`
in place). -/
def circular_buffer_write (b : circular_buffer_t) (src : List Nat) (len : Nat) :
    circular_buffer_status_t × circular_buffer_t :=
  let bstart := b.start
  let bend := b.end_
  if bstart ≤ bend then
    let avaliable_continous_back := b.len - bend
    let avaliable_continous_front := bstart
    if avaliable_continous_back + avaliable_continous_front < len then
      (CIRCULAR_BUFFER_FULL, b)
    else if len ≤ avaliable_continous_back then
      (CIRCULAR_BUFFER_OK, { b with buf := memcpy b.buf bend src len, end_ := bend + len })
    else
      let buf1 := memcpy b.buf bend src avaliable_continous_back
      let buf2 := memcpy buf1 0 (src.drop avaliable_continous_back)
        (len - avaliable_continous_back)
      (CIRCULAR_BUFFER_OK, { b with buf := buf2, end_ := len - avaliable_continous_back })
  else
    let avaliable_continous := bstart - bend
    if avaliable_continous < len then
      (CIRCULAR_BUFFER_FULL, b)
    else
      (CIRCULAR_BUFFER_OK, { b with buf := memcpy b.buf bend src len, end_ := bend + len })

/-- `circular_buffer_advance` from `circular_buffer.h`. -/
def circular_buffer_advance (amount : Nat) (b : circular_buffer_t) : circular_buffer_t :=
  let bstart := b.start
  let bend := b.end_
  if bstart ≤ bend then
    let a := if amount ≤ bend - bstart then amount else bend - bstart
    { b with start := bstart + a }
  else
    let a := if amount ≤ b.len - bstart + bend then amount else b.len - bstart + bend
    { b with start := (bstart + a) % b.len }

/-- `_circular_buffer_read` from `circular_buffer.h`.  Returns the
bytes copied to `dest` together with the updated buffer; the C
function's return value is the length of that list. -/
def _circular_buffer_read (max_len : Nat) (b : circular_buffer_t) (advance : Bool) :
    List Nat × circular_buffer_t :=
  let bstart := b.start
  let bend := b.end_
  if bstart = bend then ([], b)
  else if bstart < bend then
    let read_len := if bend - bstart < max_len then bend - bstart else max_len
    let dest := (b.buf.drop bstart).take read_len
    if advance then (dest, { b with start := bstart + read_len })
    else (dest, b)
  else
    let read_len_back := if b.len - bstart < max_len then b.len - bstart else max_len
    let dest_back := (b.buf.drop bstart).take read_len_back
    let read_len_front := if bend < max_len - read_len_back then bend
      else max_len - read_len_back
    let dest_front := b.buf.take read_len_front
    if advance then
      (dest_back ++ dest_front,
        { b with start := (bstart + read_len_back + read_len_front) % b.len })
    else (dest_back ++ dest_front, b)

/-- `circular_buffer_read` from `circular_buffer.h` (non-destructive). -/
def circular_buffer_read (max_len : Nat) (b : circular_buffer_t) :
    List Nat × circular_buffer_t :=
  _circular_buffer_read max_len b false

/-- `circular_buffer_read_and_advance` from `circular_buffer.h`. -/
def circular_buffer_read_and_advance (max_len : Nat) (b : circular_buffer_t) :
    List Nat × circular_buffer_t :=
  _circular_buffer_read max_len b true

/-- Well-formedness of a ring buffer state: the storage really has
`len` cells and both cursors are in range (`uint8_t` cursors are
written only with values `≤ len` by the code above). -/
def WF (b : circular_buffer_t) : Prop :=
  b.buf.length = b.len ∧ b.start ≤ b.len ∧ b.end_ ≤ b.len

instance (b : circular_buffer_t) : Decidable (WF b) := by
  unfold WF; infer_instance

/-- The logical content of a ring buffer: the byte sequence from
`start` to `end`, wrapping past the end of the storage. -/
def contents (b : circular_buffer_t) : List Nat :=
  if b.start ≤ b.end_ then (b.buf.drop b.start).take (b.end_ - b.start)
  else b.buf.drop b.start ++ b.buf.take b.end_

example :
    (circular_buffer_write ⟨0, 0, List.replicate 10 0, 10⟩ [255, 255, 17, 34] 4).1 =
      CIRCULAR_BUFFER_OK := by decide

example :
    circular_buffer_len
      (circular_buffer_write ⟨0, 0, List.replicate 10 0, 10⟩ [255, 255, 17, 34] 4).2 = 4 := by
  decide

example :
    (circular_buffer_read 5 ⟨8, 8, [0,0,0,0,0,0,0,0,0,0], 10⟩).1 = [] := by decide

example :
    (circular_buffer_read_and_advance 5
      (circular_buffer_write ⟨8, 8, [0,0,0,0,0,0,0,0,0,0], 10⟩ [255, 255, 17, 34] 4).2).1 =
      [255, 255, 17, 34] := by decide

/-! ### Ring buffer: bridge lemmas between the C operations and `contents` -/

theorem ite_bool_true {α : Sort u} (a b : α) : (if true = true then a else b) = a :=
  if_pos rfl

theorem ite_bool_false {α : Sort u} (a b : α) : (if false = true then a else b) = b :=
  if_neg (by simp)

theorem contents_length (b : circular_buffer_t) (h : WF b) :
    (contents b).length = circular_buffer_len b := by
  obtain ⟨hl, hs, he⟩ := h
  simp only [contents, circular_buffer_len]
  split_ifs with h1 <;>
    simp [List.length_take, List.length_drop, hl] <;> omega

theorem read_val (m : Nat) (b : circular_buffer_t) (adv : Bool) (h : WF b) :
    (_circular_buffer_read m b adv).1 = (contents b).take m := by
  obtain ⟨hl, hs, he⟩ := h
  have hfst : ∀ (c : Bool) (x : List Nat) (s t : circular_buffer_t),
      (if c = true then (x, s) else (x, t)).1 = x := by
    intro c x s t; cases c
    · rw [ite_bool_false]
    · rw [ite_bool_true]
  simp only [_circular_buffer_read, contents]
  by_cases h0 : b.start = b.end_
  · simp [h0]
  · by_cases h1 : b.start < b.end_
    · have h2 : b.start ≤ b.end_ := Nat.le_of_lt h1
      simp only [if_neg h0, if_pos h1, if_pos h2, hfst]
      rw [List.take_take]
      congr 1
      split_ifs <;> omega
    · have h2 : ¬ b.start ≤ b.end_ := by omega
      simp only [if_neg h0, if_neg h1, if_neg h2, hfst]
      have hA : (b.buf.drop b.start).length = b.len - b.start := by
        simp [List.length_drop, hl]
      rw [List.take_append_eq_append_take, hA]
      congr 1
      · rw [List.take_eq_take, hA]
        split_ifs <;> omega
      · rw [List.take_take]
        congr 1
        split_ifs <;> omega

theorem read_noadv_state (m : Nat) (b : circular_buffer_t) :
    (_circular_buffer_read m b false).2 = b := by
  simp only [_circular_buffer_read, ite_bool_false, if_false]
  split_ifs <;> rfl

theorem read_adv_state (m : Nat) (b : circular_buffer_t) (h : WF b) :
    (_circular_buffer_read m b true).2 = circular_buffer_advance m b := by
  obtain ⟨hl, hs, he⟩ := h
  simp only [_circular_buffer_read, circular_buffer_advance, ite_bool_true, if_true]
  by_cases h0 : b.start = b.end_
  · simp only [if_pos h0]
    have h2 : b.start ≤ b.end_ := by omega
    rw [if_pos h2]
    have : (if m ≤ b.end_ - b.start then m else b.end_ - b.start) = 0 := by
      split_ifs <;> omega
    rw [this]
    simp
  · by_cases h1 : b.start < b.end_
    · have h2 : b.start ≤ b.end_ := Nat.le_of_lt h1
      simp only [if_neg h0, if_pos h1, if_pos h2]
      congr 1
      split_ifs <;> omega
    · have h2 : ¬ b.start ≤ b.end_ := by omega
      simp only [if_neg h0, if_neg h1, if_neg h2]
      congr 2
      split_ifs <;> omega

theorem advance_buf (a : Nat) (b : circular_buffer_t) :
    (circular_buffer_advance a b).buf = b.buf := by
  simp only [circular_buffer_advance]
  split_ifs <;> rfl

theorem advance_end (a : Nat) (b : circular_buffer_t) :
    (circular_buffer_advance a b).end_ = b.end_ := by
  simp only [circular_buffer_advance]
  split_ifs <;> rfl

theorem advance_len (a : Nat) (b : circular_buffer_t) :
    (circular_buffer_advance a b).len = b.len := by
  simp only [circular_buffer_advance]
  split_ifs <;> rfl

theorem advance_WF (a : Nat) (b : circular_buffer_t) (h : WF b) :
    WF (circular_buffer_advance a b) := by
  obtain ⟨hl, hs, he⟩ := h
  simp only [circular_buffer_advance, WF]
  split_ifs with h1 h2 h2 <;> refine ⟨hl, ?_, he⟩
  · simp only []; omega
  · simp only []; omega
  all_goals
    have hpos : 0 < b.len := by omega
  all_goals
    exact Nat.le_of_lt (Nat.mod_lt _ hpos)

theorem advance_contents (a : Nat) (b : circular_buffer_t) (h : WF b) :
    contents (circular_buffer_advance a b) = (contents b).drop a := by
  obtain ⟨hl, hs, he⟩ := h
  simp only [circular_buffer_advance, contents]
  by_cases h1 : b.start ≤ b.end_
  · simp only [if_pos h1]
    by_cases h2 : a ≤ b.end_ - b.start
    · simp only [if_pos h2]
      have h3 : b.start + a ≤ b.end_ := by omega
      simp only [if_pos h3]
      rw [List.drop_take, List.drop_drop]
      congr 1
      omega
    · simp only [if_neg h2]
      have h3 : b.start + (b.end_ - b.start) ≤ b.end_ := by omega
      simp only [if_pos h3]
      have e1 : b.end_ - (b.start + (b.end_ - b.start)) = 0 := by omega
      have e2 : b.end_ - b.start - a = 0 := by omega
      rw [e1, List.drop_take, e2]
      simp
  · simp only [if_neg h1]
    have hstart : b.end_ < b.start := by omega
    have hpos : 0 < b.len := by omega
    have hAlen : (b.buf.drop b.start).length = b.len - b.start := by
      simp [List.length_drop, hl]
    rw [List.drop_append_eq_append_drop, hAlen]
    by_cases hc : a ≤ b.len - b.start + b.end_
    · rw [if_pos hc]
      by_cases h2 : b.start + a < b.len
      · rw [Nat.mod_eq_of_lt h2]
        have h3 : ¬ b.start + a ≤ b.end_ := by omega
        rw [if_neg h3]
        have e1 : a - (b.len - b.start) = 0 := by omega
        rw [e1, List.drop_drop, List.drop_zero]
      · push_neg at h2
        have hmod : (b.start + a) % b.len = b.start + a - b.len := by
          rw [Nat.mod_eq_sub_mod (by omega), Nat.mod_eq_of_lt (by omega)]
        rw [hmod]
        have h3 : b.start + a - b.len ≤ b.end_ := by omega
        rw [if_pos h3]
        have hXnil : List.drop a (List.drop b.start b.buf) = [] := by
          apply List.drop_eq_nil_of_le
          rw [hAlen]
          omega
        rw [hXnil, List.nil_append, List.drop_take]
        have e1 : a - (b.len - b.start) = b.start + a - b.len := by omega
        rw [e1]
    · rw [if_neg hc]
      have hmod : (b.start + (b.len - b.start + b.end_)) % b.len = b.end_ := by
        have h4 : b.start + (b.len - b.start + b.end_) = b.len + b.end_ := by omega
        rw [h4, Nat.add_mod_left, Nat.mod_eq_of_lt (by omega)]
      rw [hmod]
      have h3 : b.end_ ≤ b.end_ := Nat.le_refl _
      rw [if_pos h3]
      have hXnil : List.drop a (List.drop b.start b.buf) = [] := by
        apply List.drop_eq_nil_of_le
        rw [hAlen]
        omega
      have hYnil : List.drop (a - (b.len - b.start)) (List.take b.end_ b.buf) = [] := by
        apply List.drop_eq_nil_of_le
        rw [List.length_take]
        omega
      rw [hXnil, hYnil, List.nil_append]
      simp

theorem write_full (b : circular_buffer_t) (src : List Nat) (len : Nat) (h : WF b)
    (hlt : b.len - circular_buffer_len b < len) :
    circular_buffer_write b src len = (CIRCULAR_BUFFER_FULL, b) := by
  obtain ⟨hl, hs, he⟩ := h
  simp only [circular_buffer_len] at hlt
  simp only [circular_buffer_write]
  by_cases h1 : b.start ≤ b.end_
  · rw [if_pos h1] at hlt ⊢
    rw [if_pos (by omega : b.len - b.end_ + b.start < len)]
  · rw [if_neg h1] at hlt ⊢
    rw [if_pos (by omega : b.start - b.end_ < len)]

theorem write_status_ok (b : circular_buffer_t) (src : List Nat) (len : Nat) (h : WF b)
    (hle : len ≤ b.len - circular_buffer_len b) :
    (circular_buffer_write b src len).1 = CIRCULAR_BUFFER_OK := by
  obtain ⟨hl, hs, he⟩ := h
  simp only [circular_buffer_len] at hle
  simp only [circular_buffer_write]
  by_cases h1 : b.start ≤ b.end_
  · rw [if_pos h1] at hle ⊢
    rw [if_neg (by omega : ¬ b.len - b.end_ + b.start < len)]
    split_ifs <;> rfl
  · rw [if_neg h1] at hle ⊢
    rw [if_neg (by omega : ¬ b.start - b.end_ < len)]

theorem write_ok_spec (b : circular_buffer_t) (src : List Nat) (h : WF b)
    (hlen : circular_buffer_len b + src.length < b.len) :
    (circular_buffer_write b src src.length).1 = CIRCULAR_BUFFER_OK ∧
    WF (circular_buffer_write b src src.length).2 ∧
    (circular_buffer_write b src src.length).2.start = b.start ∧
    (circular_buffer_write b src src.length).2.len = b.len ∧
    contents (circular_buffer_write b src src.length).2 = contents b ++ src := by
  obtain ⟨hl, hs, he⟩ := h
  simp only [circular_buffer_len] at hlen
  simp only [circular_buffer_write]
  by_cases h1 : b.start ≤ b.end_
  · rw [if_pos h1] at hlen ⊢
    rw [if_neg (by omega : ¬ b.len - b.end_ + b.start < src.length)]
    have hX : (b.buf.take b.end_).length = b.end_ := by
      rw [List.length_take]; omega
    have hXdrop : (b.buf.take b.end_).drop b.start =
        (b.buf.drop b.start).take (b.end_ - b.start) := List.drop_take _ _ _
    by_cases h2 : src.length ≤ b.len - b.end_
    · rw [if_pos h2]
      simp only [memcpy, List.take_length]
      refine ⟨trivial, ?_, trivial, trivial, ?_⟩
      · simp only [WF]
        refine ⟨?_, (by omega : b.start ≤ b.len), (by omega : b.end_ + src.length ≤ b.len)⟩
        simp only [List.length_append, List.length_take, List.length_drop, hl]
        omega
      · simp only [contents]
        rw [if_pos (show b.start ≤ b.end_ + src.length by omega), if_pos h1]
        have e1 : (List.take b.end_ b.buf ++ src).length = b.end_ + src.length := by
          rw [List.length_append, hX]
        rw [List.drop_append_eq_append_drop, e1]
        rw [List.drop_append_eq_append_drop, hX]
        have e2 : b.start - b.end_ = 0 := by omega
        have e3 : b.start - (b.end_ + src.length) = 0 := by omega
        rw [e2, e3, List.drop_zero, List.drop_zero]
        rw [List.take_append_eq_append_take]
        have e4 : (List.drop b.start (List.take b.end_ b.buf) ++ src).length =
            b.end_ + src.length - b.start := by
          rw [List.length_append, List.length_drop, hX]; omega
        rw [e4]
        have e5 : b.end_ + src.length - b.start - (b.end_ + src.length - b.start) = 0 := by
          omega
        rw [e5, List.take_zero, List.append_nil]
        rw [List.take_of_length_le (le_of_eq e4), hXdrop]
    · rw [if_neg h2]
      push_neg at h2
      simp only [memcpy, List.take_zero, List.nil_append, Nat.zero_add]
      have hZ0 : List.drop (b.end_ + (b.len - b.end_)) b.buf = [] := by
        apply List.drop_eq_nil_of_le
        rw [hl]; omega
      have hDlen : (src.drop (b.len - b.end_)).length =
          src.length - (b.len - b.end_) := List.length_drop _ _
      have hDtake : (src.drop (b.len - b.end_)).take (src.length - (b.len - b.end_)) =
          src.drop (b.len - b.end_) := List.take_of_length_le (le_of_eq hDlen)
      rw [hZ0, List.append_nil, hDtake]
      refine ⟨by trivial, ?_, by trivial, by trivial, ?_⟩
      · simp only [WF]
        refine ⟨?_, (by omega : b.start ≤ b.len),
          (by omega : src.length - (b.len - b.end_) ≤ b.len)⟩
        simp only [List.length_append, List.length_take, List.length_drop, hl]
        omega
      · simp only [contents]
        rw [if_neg (show ¬ b.start ≤ src.length - (b.len - b.end_) by omega), if_pos h1]
        have hTake : (src.drop (b.len - b.end_) ++
            List.drop (src.length - (b.len - b.end_))
              (List.take b.end_ b.buf ++ List.take (b.len - b.end_) src)).take
              (src.length - (b.len - b.end_)) = src.drop (b.len - b.end_) :=
          List.take_left' hDlen
        rw [hTake]
        rw [List.drop_append_eq_append_drop, hDlen]
        rw [List.drop_eq_nil_of_le (show (src.drop (b.len - b.end_)).length ≤ b.start by
          rw [hDlen]; omega)]
        rw [List.nil_append, List.drop_drop]
        have e6 : src.length - (b.len - b.end_) +
            (b.start - (src.length - (b.len - b.end_))) = b.start := by omega
        rw [e6]
        rw [List.drop_append_eq_append_drop, hX]
        have e7 : b.start - b.end_ = 0 := by omega
        rw [e7, List.drop_zero, hXdrop, List.append_assoc, List.take_append_drop]
  · rw [if_neg h1] at hlen ⊢
    rw [if_neg (show ¬ b.start - b.end_ < src.length by omega)]
    simp only [memcpy, List.take_length]
    refine ⟨by trivial, ?_, by trivial, by trivial, ?_⟩
    · simp only [WF]
      refine ⟨?_, (by omega : b.start ≤ b.len), (by omega : b.end_ + src.length ≤ b.len)⟩
      simp only [List.length_append, List.length_take, List.length_drop, hl]
      omega
    · simp only [contents]
      rw [if_neg (show ¬ b.start ≤ b.end_ + src.length by omega), if_neg h1]
      have e1 : (List.take b.end_ b.buf ++ src).length = b.end_ + src.length := by
        rw [List.length_append, List.length_take]; omega
      rw [List.take_left' e1]
      rw [List.drop_append_eq_append_drop, e1]
      rw [List.drop_eq_nil_of_le (show (List.take b.end_ b.buf ++ src).length ≤ b.start by
        rw [e1]; omega)]
      rw [List.nil_append, List.drop_drop]
      have e2 : b.end_ + src.length + (b.start - (b.end_ + src.length)) = b.start := by
        omega
      rw [e2, List.append_assoc]


/-! ### Ring buffer claims -/

/-- Claim C4: `circular_buffer_write` is all-or-nothing.  For every
well-formed buffer state and every source, if the total available
space (`len` minus current occupancy, i.e. the space on both sides of
the wrap boundary combined) is less than the requested length, the
call returns `CIRCULAR_BUFFER_FULL` and the buffer is returned exactly
as it was: occupancy, both cursors and stored contents unchanged; no
partial write occurs. -/
theorem C4_write_all_or_nothing (b : circular_buffer_t) (src : List Nat) (len : Nat)
    (h : WF b) (hlt : b.len - circular_buffer_len b < len) :
    circular_buffer_write b src len = (CIRCULAR_BUFFER_FULL, b) :=
  write_full b src len h hlt

/-- Witness for C4 at a concrete input: capacity 3, one byte stored,
a 3-byte write is rejected and the state is bit-for-bit unchanged. -/
theorem C4_witness :
    WF ⟨0, 1, [9, 0, 0], 3⟩ ∧ (3 : Nat) - circular_buffer_len ⟨0, 1, [9, 0, 0], 3⟩ < 3 ∧
    circular_buffer_write ⟨0, 1, [9, 0, 0], 3⟩ [5, 6, 7] 3 =
      (CIRCULAR_BUFFER_FULL, ⟨0, 1, [9, 0, 0], 3⟩) :=
  ⟨by decide, by decide, C4_write_all_or_nothing _ [5, 6, 7] 3 (by decide) (by decide)⟩

/-- Claim C5 (counterexample): the round-trip property does not hold
for *every* buffer state with room for the new bytes — the buffer is a
FIFO, so when it is non-empty the read returns the *older* bytes
first.  Concretely: capacity 3, occupancy 1 (byte 9 stored), writing
[5] succeeds (occupancy + 1 ≤ usable capacity 2), but reading one byte
back yields [9], not [5]. -/
theorem C5_counterexample :
    circular_buffer_len ⟨0, 1, [9, 0, 0], 3⟩ + 1 ≤ 3 - 1 ∧
    (circular_buffer_write ⟨0, 1, [9, 0, 0], 3⟩ [5] 1).1 = CIRCULAR_BUFFER_OK ∧
    (circular_buffer_read_and_advance 1
      (circular_buffer_write ⟨0, 1, [9, 0, 0], 3⟩ [5] 1).2).1 ≠ [5] := by
  decide

/-- Claim C5 (amended): for every *empty* well-formed buffer state
(`start = end`, any cursor position, including near the wrap boundary)
and every byte sequence shorter than the capacity, writing the
sequence succeeds and `circular_buffer_read_and_advance` of the same
count returns exactly that sequence, including when the write or read
straddles the storage wrap boundary. -/
theorem C5_roundtrip (b : circular_buffer_t) (src : List Nat) (h : WF b)
    (hempty : b.start = b.end_) (hfit : src.length < b.len) :
    (circular_buffer_write b src src.length).1 = CIRCULAR_BUFFER_OK ∧
    (circular_buffer_read_and_advance src.length
      (circular_buffer_write b src src.length).2).1 = src := by
  have hocc : circular_buffer_len b = 0 := by
    simp [circular_buffer_len, hempty]
  have hlt : circular_buffer_len b + src.length < b.len := by omega
  obtain ⟨hok, hwf2, _, _, hcont⟩ := write_ok_spec b src h hlt
  have hcb : contents b = [] := by
    have hle := contents_length b h
    rw [hocc] at hle
    exact List.eq_nil_of_length_eq_zero hle
  refine ⟨hok, ?_⟩
  simp only [circular_buffer_read_and_advance]
  rw [read_val _ _ _ hwf2, hcont, hcb, List.nil_append, List.take_length]

/-- Witness for C5 (amended) at the spec's own wrap scenario:
capacity 10, start = end = 8, writing 4 bytes and reading them back
returns them in order across the 10 → 0 wrap. -/
theorem C5_witness :
    WF ⟨8, 8, [0,0,0,0,0,0,0,0,0,0], 10⟩ ∧ (8 : Nat) = 8 ∧ (4 : Nat) < 10 ∧
    ((circular_buffer_write ⟨8, 8, [0,0,0,0,0,0,0,0,0,0], 10⟩ [255, 255, 17, 34] 4).1 =
        CIRCULAR_BUFFER_OK ∧
      (circular_buffer_read_and_advance 4
        (circular_buffer_write ⟨8, 8, [0,0,0,0,0,0,0,0,0,0], 10⟩ [255, 255, 17, 34] 4).2).1 =
        [255, 255, 17, 34]) :=
  ⟨by decide, rfl, by decide,
    C5_roundtrip ⟨8, 8, [0,0,0,0,0,0,0,0,0,0], 10⟩ [255, 255, 17, 34] (by decide) rfl
      (by decide)⟩

/-- Claim C6: `circular_buffer_advance` is saturating.  For every
well-formed buffer state it discards exactly `min(amount, occupancy)`
bytes: the occupancy after the call is `occupancy - amount` (truncated
at zero, never moving the read cursor past the write cursor), and the
remaining content is the original content with the first `amount`
bytes dropped. -/
theorem C6_advance_saturating (amount : Nat) (b : circular_buffer_t) (h : WF b) :
    circular_buffer_len (circular_buffer_advance amount b) =
      circular_buffer_len b - amount ∧
    contents (circular_buffer_advance amount b) = (contents b).drop amount := by
  refine ⟨?_, advance_contents amount b h⟩
  rw [← contents_length _ (advance_WF amount b h), advance_contents amount b h,
    List.length_drop, contents_length b h]

/-- Witness for C6 at the spec's concrete scenario: capacity 5,
start = 4, end = 3 (occupancy 4, wrapped); `advance 3` leaves
occupancy 1. -/
theorem C6_witness :
    WF ⟨4, 3, [0,0,0,0,0], 5⟩ ∧
    (circular_buffer_len (circular_buffer_advance 3 ⟨4, 3, [0,0,0,0,0], 5⟩) =
        circular_buffer_len ⟨4, 3, [0,0,0,0,0], 5⟩ - 3 ∧
      contents (circular_buffer_advance 3 ⟨4, 3, [0,0,0,0,0], 5⟩) =
        (contents ⟨4, 3, [0,0,0,0,0], 5⟩).drop 3) :=
  ⟨by decide, C6_advance_saturating 3 _ (by decide)⟩

/-- Claim C10: full/empty aliasing is real in this code.  A write is
rejected exactly when free space is strictly less than the requested
length (no slot is reserved and no occupancy counter exists), so a
write whose end cursor lands exactly on the start cursor is accepted:
concretely, on a capacity-4 buffer with start = end = 1, writing 4
bytes returns OK yet leaves start = end, after which
`circular_buffer_len` reports 0 and a read returns no bytes — the
just-stored bytes are unreadable. -/
theorem C10_full_empty_aliasing :
    (∀ (b : circular_buffer_t) (src : List Nat) (len : Nat), WF b →
      ((circular_buffer_write b src len).1 = CIRCULAR_BUFFER_FULL ↔
        b.len - circular_buffer_len b < len)) ∧
    ((circular_buffer_write ⟨1, 1, [0,0,0,0], 4⟩ [7,8,9,6] 4).1 = CIRCULAR_BUFFER_OK ∧
      (circular_buffer_write ⟨1, 1, [0,0,0,0], 4⟩ [7,8,9,6] 4).2.start =
        (circular_buffer_write ⟨1, 1, [0,0,0,0], 4⟩ [7,8,9,6] 4).2.end_ ∧
      circular_buffer_len (circular_buffer_write ⟨1, 1, [0,0,0,0], 4⟩ [7,8,9,6] 4).2 = 0 ∧
      (circular_buffer_read 4 (circular_buffer_write ⟨1, 1, [0,0,0,0], 4⟩ [7,8,9,6] 4).2).1 =
        []) := by
  constructor
  · intro b src len h
    constructor
    · intro hfull
      by_contra hge
      have hok := write_status_ok b src len h (by omega)
      rw [hfull] at hok
      exact absurd hok (by decide)
    · intro hlt
      rw [write_full b src len h hlt]
  · exact ⟨by decide, by decide, by decide, by decide⟩

/-- Witness for C10's universally quantified part at a concrete
well-formed state. -/
theorem C10_witness :
    WF ⟨0, 0, [0, 0], 2⟩ ∧
    ((circular_buffer_write ⟨0, 0, [0, 0], 2⟩ [1, 2, 3] 3).1 = CIRCULAR_BUFFER_FULL ↔
      (2 : Nat) - circular_buffer_len ⟨0, 0, [0, 0], 2⟩ < 3) :=
  ⟨by decide, C10_full_empty_aliasing.1 ⟨0, 0, [0, 0], 2⟩ [1, 2, 3] 3 (by decide)⟩

/-! ### Two-wire bus transaction engine (`twi.h`) -/

/-- The C enum `twi_internal_state_t` from `twi.h`. -/
inductive twi_internal_state_t where
  | IDLE
  | BUSY_BLOCKING
  | SENT_START
  | SENT_READ_ADDR
  | SENT_READ_DATA
  | SENT_WRITE_ADDR
  | SENT_WRITE_DATA
deriving DecidableEq, Repr

open twi_internal_state_t

/-- The C enum `twi_status_t` from `twi.h`. -/
inductive twi_status_t where
  | READY
  | PENDING
  | ERROR
deriving DecidableEq, Repr

open twi_status_t

/-- `TW_START` from avr-libc `util/twi.h`. -/
def TW_START : Nat := 0x08

/-- `TW_MT_SLA_ACK` from avr-libc `util/twi.h`. -/
def TW_MT_SLA_ACK : Nat := 0x18

/-- `TW_MT_DATA_ACK` from avr-libc `util/twi.h`. -/
def TW_MT_DATA_ACK : Nat := 0x28

/-- `TW_MR_SLA_ACK` from avr-libc `util/twi.h`. -/
def TW_MR_SLA_ACK : Nat := 0x40

/-- `TW_MR_DATA_ACK` from avr-libc `util/twi.h`. -/
def TW_MR_DATA_ACK : Nat := 0x50

/-- `TW_READ` (direction bit 1) from avr-libc `util/twi.h`. -/
def TW_READ : Nat := 1

/-- `TW_WRITE` (direction bit 0) from avr-libc `util/twi.h`. -/
def TW_WRITE : Nat := 0

/-- Mock bus hardware for the blocking path.  The blocking code
busy-waits on `TWCR & (1 << TWINT)` after each bus command and then
inspects `TW_STATUS` (and `TWDR` for reads); the mock supplies, for
the k-th completed wait, the observed status byte and data byte.
Every wait completes (the claim concerns acknowledgement failures, not
a stalled clock line). -/
structure twi_hw where
  status : Nat → Nat
  data : Nat → Nat

/-- Result of a blocking transfer: the final contents of the caller's
buffer and the final `_twi_state`.  The C function itself returns
`void` — no status or error code reaches the caller. -/
structure twi_result where
  buf : List Nat
  state : twi_internal_state_t
deriving DecidableEq, Repr

/-- The master-receive loop inside `twi_transfer_blocking` (`for i in
0..len`, wait index `2 + i`): on `TW_MR_DATA_ACK` store the received
byte and continue, on any other status `goto cleanup` (which sets the
state to `IDLE`); after the last byte the stop condition is issued and
cleanup also sets `IDLE`. -/
def twi_blocking_read_loop (hw : twi_hw) : List Nat → Nat → Nat → twi_result
  | buf, _, 0 => ⟨buf, IDLE⟩
  | buf, i, n + 1 =>
    if hw.status (2 + i) = TW_MR_DATA_ACK then
      twi_blocking_read_loop hw (buf.set i (hw.data (2 + i))) (i + 1) n
    else ⟨buf, IDLE⟩

/-- The master-transmit loop inside `twi_transfer_blocking`: send
`buf[i]`, wait, require `TW_MT_DATA_ACK`, else `goto cleanup`; the
buffer is never modified on this path. -/
def twi_blocking_write_loop (hw : twi_hw) : List Nat → Nat → Nat → twi_result
  | buf, _, 0 => ⟨buf, IDLE⟩
  | buf, i, n + 1 =>
    if hw.status (2 + i) = TW_MT_DATA_ACK then
      twi_blocking_write_loop hw buf (i + 1) n
    else ⟨buf, IDLE⟩

/-- `twi_transfer_blocking` from `twi.h`, modelled from the point
where the engine has been claimed (`_twi_state = BUSY_BLOCKING` after
the busy-wait on `IDLE`).  Wait 0 follows the start condition, wait 1
follows the address byte, wait `2 + i` follows data byte `i`.  Every
exit path runs the `cleanup:` label, which stores `IDLE`. -/
def twi_transfer_blocking (hw : twi_hw) (addr : Nat) (buf : List Nat) (len : Nat) :
    twi_result :=
  if hw.status 0 ≠ TW_START then ⟨buf, IDLE⟩
  else if addr % 2 = TW_READ then
    if hw.status 1 ≠ TW_MR_SLA_ACK then ⟨buf, IDLE⟩
    else twi_blocking_read_loop hw buf 0 len
  else
    if hw.status 1 ≠ TW_MT_SLA_ACK then ⟨buf, IDLE⟩
    else twi_blocking_write_loop hw buf 0 len

/-- `twi_status` from `twi.h` (the C `default:` arm returning `ERROR`
is unreachable for the enum's declared values). -/
def twi_status (s : twi_internal_state_t) : twi_status_t :=
  match s with
  | IDLE => READY
  | SENT_START => PENDING
  | SENT_READ_ADDR => PENDING
  | SENT_READ_DATA => PENDING
  | SENT_WRITE_ADDR => PENDING
  | SENT_WRITE_DATA => PENDING
  | BUSY_BLOCKING => PENDING

/-- The engine's global mutable state in `twi.h`: `_twi_state`,
`_twi_addr`, `_twi_buf_index`, `_twi_buf` (+ its length
`_twi_buf_len`, here the length of the list). -/
structure twi_engine where
  state : twi_internal_state_t
  addr : Nat
  buf_index : Nat
  buf : List Nat
  buf_len : Nat
deriving DecidableEq, Repr

/-- `twi_transfer` from `twi.h` (the asynchronous entry point):
`assert(len > 0); assert(_twi_state != BUSY_BLOCKING);` then store the
transaction fields, issue the start condition and set
`_twi_state = SENT_START`, returning immediately (no wait).  A firing
assertion is modelled as `none`. -/
def twi_transfer (e : twi_engine) (addr : Nat) (buf : List Nat) (len : Nat) :
    Option twi_engine :=
  if len = 0 then none
  else if e.state = BUSY_BLOCKING then none
  else some ⟨SENT_START, addr, 0, buf, len⟩

/-- `ISR(TWI_vect)` from `twi.h`: one step of the interrupt-driven
state machine, given the observed `TW_STATUS` and `TWDR` bytes.  On
every unexpected status the C handler's `else` branch is an empty
`// TODO handle error!`, so the engine state is left unchanged. -/
def ISR_TWI_vect (tw_status twdr : Nat) (e : twi_engine) : twi_engine :=
  match e.state with
  | SENT_START =>
    if tw_status = TW_START then
      { e with state := if e.addr % 2 = TW_READ then SENT_READ_ADDR else SENT_WRITE_ADDR }
    else e
  | SENT_WRITE_ADDR =>
    if tw_status = TW_MT_SLA_ACK then
      { e with buf_index := e.buf_index + 1, state := SENT_WRITE_DATA }
    else e
  | SENT_WRITE_DATA =>
    if tw_status = TW_MT_DATA_ACK then
      if e.buf_index < e.buf_len then
        { e with buf_index := e.buf_index + 1, state := SENT_WRITE_DATA }
      else { e with state := IDLE }
    else e
  | SENT_READ_ADDR =>
    if tw_status = TW_MR_SLA_ACK then { e with state := SENT_READ_DATA }
    else e
  | SENT_READ_DATA =>
    if tw_status = TW_MR_DATA_ACK then
      if e.buf_index < e.buf_len then
        { e with
            buf := e.buf.set e.buf_index twdr
            buf_index := e.buf_index + 1
            state := SENT_READ_DATA }
      else { e with state := IDLE }
    else e
  | BUSY_BLOCKING => e
  | IDLE => e

theorem twi_blocking_read_loop_idle (hw : twi_hw) :
    ∀ (n : Nat) (buf : List Nat) (i : Nat),
      (twi_blocking_read_loop hw buf i n).state = IDLE := by
  intro n
  induction n with
  | zero => intro buf i; rfl
  | succ n ih =>
    intro buf i
    simp only [twi_blocking_read_loop]
    split_ifs
    · exact ih _ _
    · rfl

theorem twi_blocking_write_loop_idle (hw : twi_hw) :
    ∀ (n : Nat) (buf : List Nat) (i : Nat),
      (twi_blocking_write_loop hw buf i n).state = IDLE := by
  intro n
  induction n with
  | zero => intro buf i; rfl
  | succ n ih =>
    intro buf i
    simp only [twi_blocking_write_loop]
    split_ifs
    · exact ih _ _
    · rfl

/-- Claim C2: for every mock bus hardware (in particular one that
reports "no ack" at any protocol phase), every address, buffer and
length, the blocking transfer — modelled from the moment it has
claimed the engine — terminates (it is a total function of the mock
hardware) and ends with the engine state `IDLE`, so `twi_status`
reports `READY`; the result carries no error indication of any kind
(the C function returns `void` in every outcome). -/
theorem C2_blocking_transfer_terminates_idle (hw : twi_hw) (addr : Nat)
    (buf : List Nat) (len : Nat) :
    (twi_transfer_blocking hw addr buf len).state = IDLE ∧
    twi_status (twi_transfer_blocking hw addr buf len).state = READY := by
  have hstate : (twi_transfer_blocking hw addr buf len).state = IDLE := by
    simp only [twi_transfer_blocking]
    split_ifs
    · rfl
    · rfl
    · exact twi_blocking_read_loop_idle hw len buf 0
    · rfl
    · exact twi_blocking_write_loop_idle hw len buf 0
  exact ⟨hstate, by rw [hstate]; rfl⟩

/-- Claim C1 (the code, evaluated at the failing input): in
asynchronous mode the ISR's error branches are empty (`// TODO handle
error!`), so when the engine is in `SENT_START` and the hardware
reports status 0x20 (address NACK, not `TW_START`), the state remains
`SENT_START` — it is *not* reset to `IDLE`, contradicting the claimed
nack-resets-to-Idle behaviour (which the blocking path does have). -/
theorem C1_isr_nack_leaves_state :
    (ISR_TWI_vect 0x20 0 ⟨SENT_START, 2, 0, [0], 1⟩).state = SENT_START ∧
    SENT_START ≠ IDLE := by
  decide

/-- Claim C3 (counterexample): `twi_transfer` only asserts
`_twi_state != BUSY_BLOCKING`; in the non-Idle state `SENT_START`
(an in-flight async transaction) no assertion fires and the call
proceeds, overwriting the transaction fields. -/
theorem C3_counterexample :
    (twi_transfer ⟨SENT_START, 2, 0, [0], 1⟩ 4 [0] 1).isSome = true ∧
    SENT_START ≠ IDLE := by
  decide

/-- Claim C3 (amended): `twi_transfer` performs no wait before
claiming the engine and fails loudly — for nonzero length — exactly
when a *blocking* transfer is in flight (`state = BUSY_BLOCKING`); for
every other entry state, including in-flight asynchronous states, it
immediately stores the transaction fields and sets `SENT_START`. -/
theorem C3_transfer_asserts_not_busy_blocking (e : twi_engine) (addr : Nat)
    (buf : List Nat) (len : Nat) (hlen : 0 < len) :
    (twi_transfer e addr buf len = none ↔ e.state = BUSY_BLOCKING) ∧
    (e.state ≠ BUSY_BLOCKING →
      twi_transfer e addr buf len = some ⟨SENT_START, addr, 0, buf, len⟩) := by
  simp only [twi_transfer, if_neg (by omega : ¬ len = 0)]
  constructor
  · split_ifs with hb
    · simp [hb]
    · simp [hb]
  · intro hb
    rw [if_neg hb]

/-- Witness for C3 (amended) at a concrete input. -/
theorem C3_witness :
    (0 : Nat) < 1 ∧
    ((twi_transfer ⟨BUSY_BLOCKING, 2, 0, [0], 1⟩ 4 [9] 1 = none ↔
        BUSY_BLOCKING = BUSY_BLOCKING) ∧
      (BUSY_BLOCKING ≠ BUSY_BLOCKING →
        twi_transfer ⟨BUSY_BLOCKING, 2, 0, [0], 1⟩ 4 [9] 1 =
          some ⟨SENT_START, 4, 0, [9], 1⟩)) :=
  ⟨by decide, C3_transfer_asserts_not_busy_blocking ⟨BUSY_BLOCKING, 2, 0, [0], 1⟩ 4 [9] 1
    (by decide)⟩

/-! ### Delimited stream reader (`usart.h`)

The two blocking readers drain the interrupt-filled receive ring
buffer (`_usart_recv_buffer`) into a caller scratch buffer and search
it with C `strstr`.  The model makes the interrupt deliveries explicit
as a schedule `feed : Nat → List Nat` — the bytes the RX interrupt
pushes (one `circular_buffer_write` of one byte each) before loop
iteration `k`; `sleep_mode()` is waiting for a later iteration's feed.
The unbounded `while (1)` loop is given explicit fuel; `none` means
the loop is still running after `fuel` iterations.  `len` is the C
`uint8_t` scratch size (the model, like the C, stores at most
`len - 1` bytes and null-terminates); the C `int` arithmetic
`len - 1 - total` and the `uint8_t` conversions of the
pointer-difference advance amounts go through `u8`. -/

/-- C-string view of a byte buffer: everything before the first 0x00
(what `strlen`/`strstr` operate on). -/
def cstr (s : List Nat) : List Nat := s.takeWhile (fun b => b ≠ 0)

/-- `strlen` on the modelled bytes. -/
def strlenC (s : List Nat) : Nat := (cstr s).length

/-- Scan helper for `strstr`: first index of `nd` in `hay` (both
already null-truncated). -/
def findSub (nd : List Nat) : List Nat → Option Nat
  | [] => if nd.isPrefixOf [] then some 0 else none
  | h :: t => if nd.isPrefixOf (h :: t) then some 0 else (findSub nd t).map (· + 1)

/-- C `strstr(hay, nd)`: the byte offset of the first occurrence of
the null-truncated needle in the null-truncated haystack. -/
def strstrC (hay nd : List Nat) : Option Nat := findSub (cstr nd) (cstr hay)

/-- `ISR(USART0_RX_vect)` from `usart.h`: push one received byte into
the receive ring buffer; a `CIRCULAR_BUFFER_FULL` status is ignored
(`// TODO handle error!`), dropping the byte. -/
def ISR_USART0_RX (val : Nat) (ring : circular_buffer_t) : circular_buffer_t :=
  (circular_buffer_write ring [val] 1).2

/-- A burst of RX interrupts delivering `bytes` in order. -/
def usart_feed (ring : circular_buffer_t) (bytes : List Nat) : circular_buffer_t :=
  bytes.foldl (fun b v => ISR_USART0_RX v b) ring

/-- The `while (1)` loop of `usart_recv_take_until_blocking`:
non-destructively read up to `len - 1 - total` bytes, null-terminate,
`strstr`; on a match advance the ring by
`(needle_start - recv_buf) - (total - recv_bytes) + needle_len`
(consuming through the end of the needle) and return the needle's
offset; otherwise consume the bytes just read, give up returning
`total` once the scratch is full, and loop (sleeping when no bytes
arrived). -/
def usart_recv_take_until_loop (needle : List Nat) (len : Nat) (feed : Nat → List Nat) :
    Nat → Nat → circular_buffer_t → List Nat → Option (Nat × circular_buffer_t)
  | 0, _, _, _ => none
  | fuel + 1, k, ring, scratch =>
    let ring0 := usart_feed ring (feed k)
    let total0 := scratch.length
    let bytes := (circular_buffer_read (u8 ((len : Int) - 1 - total0)) ring0).1
    let scratch1 := scratch ++ bytes
    let total := scratch1.length
    match strstrC scratch1 needle with
    | some m =>
      some (m, circular_buffer_advance
        (u8 ((m : Int) - total0 + (strlenC needle : Int))) ring0)
    | none =>
      let ring1 := circular_buffer_advance bytes.length ring0
      if len - 1 ≤ total then some (total, ring1)
      else usart_recv_take_until_loop needle len feed fuel (k + 1) ring1 scratch1

/-- `usart_recv_take_until_blocking` from `usart.h` (entered with an
empty scratch buffer, `total_recv_bytes = 0`). -/
def usart_recv_take_until_blocking (needle : List Nat) (len : Nat)
    (feed : Nat → List Nat) (fuel : Nat) (ring : circular_buffer_t) :
    Option (Nat × circular_buffer_t) :=
  usart_recv_take_until_loop needle len feed fuel 0 ring []

/-- The `while (1)` loop of `usart_recv_drop_until_blocking`: same
scan, but on a match advance the ring only by
`(needle_start - recv_buf) - (total - recv_bytes)` (up to the
needle's *start*) and return; on scratch overflow compact by moving
the last `needle_len` bytes (`memmove` from `len - 1 - needle_len`)
to the front and continue. -/
def usart_recv_drop_until_loop (needle : List Nat) (len : Nat) (feed : Nat → List Nat) :
    Nat → Nat → circular_buffer_t → List Nat → Option circular_buffer_t
  | 0, _, _, _ => none
  | fuel + 1, k, ring, scratch =>
    let ring0 := usart_feed ring (feed k)
    let total0 := scratch.length
    let bytes := (circular_buffer_read (u8 ((len : Int) - 1 - total0)) ring0).1
    let scratch1 := scratch ++ bytes
    let total := scratch1.length
    match strstrC scratch1 needle with
    | some m => some (circular_buffer_advance (u8 ((m : Int) - total0)) ring0)
    | none =>
      let ring1 := circular_buffer_advance bytes.length ring0
      let scratch2 := if len - 1 ≤ total then
          (scratch1.drop (len - 1 - strlenC needle)).take (strlenC needle)
        else scratch1
      usart_recv_drop_until_loop needle len feed fuel (k + 1) ring1 scratch2

/-- `usart_recv_drop_until_blocking` from `usart.h`. -/
def usart_recv_drop_until_blocking (needle : List Nat) (len : Nat)
    (feed : Nat → List Nat) (fuel : Nat) (ring : circular_buffer_t) :
    Option circular_buffer_t :=
  usart_recv_drop_until_loop needle len feed fuel 0 ring []

/-- No byte of `l` is 0x00 (so the C-string view is `l` itself). -/
def noNull (l : List Nat) : Prop := ∀ x ∈ l, x ≠ 0

instance (l : List Nat) : Decidable (noNull l) := by
  unfold noNull; infer_instance

example :
    (usart_recv_take_until_blocking [13, 10] 16 (fun _ => []) 3
      ⟨0, 4, [103, 79, 13, 10, 0, 0, 0, 0], 8⟩).map Prod.fst = some 2 := by decide

/-! ### `strstr` characterization -/

theorem cstr_eq_self (l : List Nat) (h : noNull l) : cstr l = l := by
  rw [cstr, List.takeWhile_eq_self_iff]
  intro x hx
  simpa using h x hx

theorem noNull_of_subset (l s : List Nat) (hsub : s ⊆ l) (h : noNull l) : noNull s :=
  fun x hx => h x (hsub hx)

theorem noNull_append (a b : List Nat) (ha : noNull a) (hb : noNull b) :
    noNull (a ++ b) := by
  intro x hx
  rcases List.mem_append.mp hx with h | h
  · exact ha x h
  · exact hb x h

theorem findSub_some_iff (nd : List Nat) :
    ∀ (hay : List Nat) (m : Nat),
      findSub nd hay = some m ↔
        (nd <+: hay.drop m ∧ ∀ j, j < m → ¬ nd <+: hay.drop j) := by
  intro hay
  induction hay with
  | nil =>
    intro m
    simp only [findSub]
    by_cases hnd : nd.isPrefixOf ([] : List Nat)
    · rw [if_pos hnd]
      have hnd2 : nd <+: ([] : List Nat) := List.isPrefixOf_iff_prefix.mp hnd
      constructor
      · intro heq
        have hm : m = 0 := by
          have := Option.some.inj heq; omega
        subst hm
        exact ⟨by simpa using hnd2, fun j hj => by omega⟩
      · rintro ⟨h1, h2⟩
        by_cases hm : m = 0
        · subst hm; rfl
        · exact absurd (by simpa using hnd2 : nd <+: ([] : List Nat).drop 0)
            (h2 0 (by omega))
    · rw [if_neg hnd]
      constructor
      · intro heq; exact absurd heq (by simp)
      · rintro ⟨h1, h2⟩
        exact absurd (List.isPrefixOf_iff_prefix.mpr (by simpa using h1)) hnd
  | cons h t ih =>
    intro m
    simp only [findSub]
    by_cases hnd : nd.isPrefixOf (h :: t)
    · rw [if_pos hnd]
      have hnd2 : nd <+: h :: t := List.isPrefixOf_iff_prefix.mp hnd
      constructor
      · intro heq
        have hm : m = 0 := by
          have := Option.some.inj heq; omega
        subst hm
        exact ⟨by simpa using hnd2, fun j hj => by omega⟩
      · rintro ⟨h1, h2⟩
        by_cases hm : m = 0
        · subst hm; rfl
        · exact absurd (by simpa using hnd2 : nd <+: (h :: t).drop 0) (h2 0 (by omega))
    · rw [if_neg hnd]
      constructor
      · intro heq
        obtain ⟨m1, hm1, hm⟩ := Option.map_eq_some'.mp heq
        subst hm
        obtain ⟨hpf, hmin⟩ := (ih m1).mp hm1
        refine ⟨by simpa [List.drop_succ_cons] using hpf, ?_⟩
        intro j hj
        cases j with
        | zero =>
          intro hc
          exact hnd (List.isPrefixOf_iff_prefix.mpr (by simpa using hc))
        | succ j1 =>
          rw [List.drop_succ_cons]
          exact hmin j1 (by omega)
      · rintro ⟨hpf, hmin⟩
        cases m with
        | zero =>
          exact absurd (List.isPrefixOf_iff_prefix.mpr (by simpa using hpf)) hnd
        | succ m1 =>
          have hrec := (ih m1).mpr
            ⟨by simpa [List.drop_succ_cons] using hpf, fun j hj => by
              have := hmin (j + 1) (by omega)
              simpa [List.drop_succ_cons] using this⟩
          rw [hrec]
          rfl

theorem findSub_none_iff (nd : List Nat) :
    ∀ hay : List Nat, findSub nd hay = none ↔ ∀ j, ¬ nd <+: hay.drop j := by
  intro hay
  induction hay with
  | nil =>
    simp only [findSub]
    by_cases hnd : nd.isPrefixOf ([] : List Nat)
    · rw [if_pos hnd]
      constructor
      · intro heq; exact absurd heq (by simp)
      · intro hall
        exact absurd (by simpa using List.isPrefixOf_iff_prefix.mp hnd : nd <+: ([] : List Nat).drop 0)
          (hall 0)
    · rw [if_neg hnd]
      refine ⟨fun _ j => ?_, fun _ => rfl⟩
      intro hc
      exact hnd (List.isPrefixOf_iff_prefix.mpr (by simpa using hc))
  | cons h t ih =>
    simp only [findSub]
    by_cases hnd : nd.isPrefixOf (h :: t)
    · rw [if_pos hnd]
      constructor
      · intro heq; exact absurd heq (by simp)
      · intro hall
        exact absurd (by simpa using List.isPrefixOf_iff_prefix.mp hnd : nd <+: (h :: t).drop 0)
          (hall 0)
    · rw [if_neg hnd]
      rw [Option.map_eq_none', ih]
      constructor
      · intro hall j
        cases j with
        | zero =>
          intro hc
          exact hnd (List.isPrefixOf_iff_prefix.mpr (by simpa using hc))
        | succ j1 =>
          rw [List.drop_succ_cons]
          exact hall j1
      · intro hall j
        have := hall (j + 1)
        rwa [List.drop_succ_cons] at this

theorem prefix_inner (nd A B : List Nat) (j : Nat) (hle : j + nd.length ≤ A.length)
    (h : nd <+: (A ++ B).drop j) : nd <+: A.drop j := by
  rw [List.prefix_iff_eq_take, List.drop_append_eq_append_drop] at h
  rw [List.take_append_of_le_length (by rw [List.length_drop]; omega)] at h
  rw [h]
  exact List.take_prefix _ _

theorem findSub_append_lower (nd hay ext : List Nat) (m : Nat)
    (hnone : findSub nd hay = none) (hsome : findSub nd (hay ++ ext) = some m) :
    hay.length < m + nd.length := by
  by_contra hle
  push_neg at hle
  obtain ⟨hpf, _⟩ := (findSub_some_iff nd (hay ++ ext) m).mp hsome
  exact (findSub_none_iff nd hay).mp hnone m (prefix_inner nd hay ext m (by omega) hpf)

theorem findSub_of_prefix (nd s input : List Nat) (m : Nat)
    (hpr : s <+: input) (h : findSub nd s = some m) : findSub nd input = some m := by
  obtain ⟨hpf, hmin⟩ := (findSub_some_iff nd s m).mp h
  obtain ⟨tail, rfl⟩ := hpr
  refine (findSub_some_iff nd (s ++ tail) m).mpr ⟨?_, ?_⟩
  · rw [List.drop_append_eq_append_drop]
    exact hpf.trans (List.prefix_append _ _)
  · intro j hj hcontra
    by_cases hnd : nd = []
    · subst hnd
      exact hmin j hj List.nil_prefix
    · have hndlen : 0 < nd.length := List.length_pos.mpr hnd
      have hmle : nd.length ≤ s.length - m := by
        have := hpf.length_le
        rwa [List.length_drop] at this
      exact hmin j hj (prefix_inner nd s tail j (by omega) hcontra)

/-- Claim C9 (counterexample): the needle is *not* an arbitrary byte
sequence.  It is passed as a C string, so `strlen`/`strstr` truncate
it at the first 0x00: searching for the 3-byte sequence [0x41, 0x00,
0x42] over a stream containing only [0x41] reports a match at offset
0 (the call degenerates to searching for "A"), although the requested
sequence never occurs in the stream. -/
theorem C9_counterexample :
    contents ⟨0, 1, [65, 0, 0, 0], 4⟩ = [65] ∧
    (usart_recv_take_until_blocking [65, 0, 66] 16 (fun _ => []) 3
      ⟨0, 1, [65, 0, 0, 0], 4⟩).map Prod.fst = some 0 ∧
    ¬ [65, 0, 66] <:+: [65] := by
  decide

/-- Claim C9 (amended): the delimited stream reader's matching is
C-string matching — needle and accumulated data are both truncated at
the first 0x00 byte.  For every *zero-free* non-empty needle and
zero-free data, `strstrC` (the model of the `strstr` call both
`drop_until` and `take_until` perform) finds exactly the first
occurrence of that byte sequence: `some m` iff the needle occurs at
offset `m` and at no earlier offset, `none` iff it occurs nowhere. -/
theorem C9_needle_matching (hay nd : List Nat) (hh : noNull hay) (hn : noNull nd)
    (hne : nd ≠ []) :
    (∀ m, strstrC hay nd = some m ↔
      (nd <+: hay.drop m ∧ ∀ j, j < m → ¬ nd <+: hay.drop j)) ∧
    (strstrC hay nd = none ↔ ∀ j, ¬ nd <+: hay.drop j) := by
  have hne2 : nd ≠ [] := hne
  simp only [strstrC, cstr_eq_self hay hh, cstr_eq_self nd hn]
  exact ⟨fun m => findSub_some_iff nd hay m, findSub_none_iff nd hay⟩

/-- Witness for C9 (amended) at a concrete zero-free input. -/
theorem C9_witness :
    noNull [1, 2, 3] ∧ noNull [2, 3] ∧ [2, 3] ≠ [] ∧
    (strstrC [1, 2, 3] [2, 3] = some 1 ↔
      ([2, 3] <+: [1, 2, 3].drop 1 ∧ ∀ j, j < 1 → ¬ [2, 3] <+: [1, 2, 3].drop j)) :=
  ⟨by decide, by decide, by decide,
    (C9_needle_matching [1, 2, 3] [2, 3] (by decide) (by decide) (by decide)).1 1⟩

/-! ### Reader loop invariants -/

theorem write_push_spec (b : circular_buffer_t) (v : Nat) (h : WF b)
    (hlen : circular_buffer_len b + 1 < b.len) :
    contents (circular_buffer_write b [v] 1).2 = contents b ++ [v] ∧
    WF (circular_buffer_write b [v] 1).2 ∧
    (circular_buffer_write b [v] 1).2.len = b.len := by
  have h2 := write_ok_spec b [v] h (by simpa using hlen)
  exact ⟨h2.2.2.2.2, h2.2.1, h2.2.2.2.1⟩

theorem usart_feed_spec :
    ∀ (bytes : List Nat) (b : circular_buffer_t), WF b →
      circular_buffer_len b + bytes.length < b.len →
      contents (usart_feed b bytes) = contents b ++ bytes ∧
        WF (usart_feed b bytes) ∧ (usart_feed b bytes).len = b.len := by
  intro bytes
  induction bytes with
  | nil =>
    intro b hWF hfit
    exact ⟨(List.append_nil _).symm, hWF, rfl⟩
  | cons v vs ih =>
    intro b hWF hfit
    have hfitc : circular_buffer_len b + (vs.length + 1) < b.len := by
      simpa [List.length_cons] using hfit
    obtain ⟨hcont, hwf2, hlen2⟩ := write_push_spec b v hWF (by omega)
    have hocc2 : circular_buffer_len (circular_buffer_write b [v] 1).2 =
        circular_buffer_len b + 1 := by
      rw [← contents_length _ hwf2, hcont, List.length_append, contents_length b hWF]
      rfl
    obtain ⟨ih1, ih2, ih3⟩ := ih (circular_buffer_write b [v] 1).2 hwf2
      (by rw [hocc2, hlen2]; omega)
    refine ⟨?_, ?_, ?_⟩
    · show contents (usart_feed (circular_buffer_write b [v] 1).2 vs) = _
      rw [ih1, hcont, List.append_assoc, List.singleton_append]
    · exact ih2
    · show (usart_feed (circular_buffer_write b [v] 1).2 vs).len = b.len
      rw [ih3, hlen2]

/-- Concatenation of the interrupt deliveries for `n` consecutive loop
iterations starting at iteration `k`. -/
def feedCat (feed : Nat → List Nat) (k : Nat) : Nat → List Nat
  | 0 => []
  | n + 1 => feed k ++ feedCat feed (k + 1) n

/-- Run instrumentation for `take_until`: replays the loop and checks
that no interrupt delivery overflows the ring buffer (each burst fits
with one slot spare, so no byte is dropped and the full/empty aliasing
state `start = end` is never produced by a write). -/
def take_run_safe (needle : List Nat) (len : Nat) (feed : Nat → List Nat) :
    Nat → Nat → circular_buffer_t → List Nat → Bool
  | 0, _, _, _ => true
  | fuel + 1, k, ring, scratch =>
    decide (circular_buffer_len ring + (feed k).length + 1 ≤ ring.len) &&
    (let ring0 := usart_feed ring (feed k)
     let total0 := scratch.length
     let bytes := (circular_buffer_read (u8 ((len : Int) - 1 - total0)) ring0).1
     let scratch1 := scratch ++ bytes
     let total := scratch1.length
     match strstrC scratch1 needle with
     | some _ => true
     | none =>
       if len - 1 ≤ total then true
       else take_run_safe needle len feed fuel (k + 1)
         (circular_buffer_advance bytes.length ring0) scratch1)

/-- Run instrumentation for `drop_until`: as `take_run_safe`, and
additionally checks that the match, when found, does not straddle the
already-consumed part of the scratch buffer (`total0 ≤ m`) — when it
does, the C code's advance amount `m - total0` underflows `uint8_t`. -/
def drop_run_safe (needle : List Nat) (len : Nat) (feed : Nat → List Nat) :
    Nat → Nat → circular_buffer_t → List Nat → Bool
  | 0, _, _, _ => true
  | fuel + 1, k, ring, scratch =>
    decide (circular_buffer_len ring + (feed k).length + 1 ≤ ring.len) &&
    (let ring0 := usart_feed ring (feed k)
     let total0 := scratch.length
     let bytes := (circular_buffer_read (u8 ((len : Int) - 1 - total0)) ring0).1
     let scratch1 := scratch ++ bytes
     let total := scratch1.length
     match strstrC scratch1 needle with
     | some m => decide (total0 ≤ m)
     | none =>
       let scratch2 := if len - 1 ≤ total then
           (scratch1.drop (len - 1 - strlenC needle)).take (strlenC needle)
         else scratch1
       drop_run_safe needle len feed fuel (k + 1)
         (circular_buffer_advance bytes.length ring0) scratch2)

theorem take_append_drop_len (n : Nat) (l : List Nat) :
    l.take n ++ l.drop (l.take n).length = l := by
  rcases Nat.le_total n l.length with h | h
  · have h1 : (l.take n).length = n := by
      rw [List.length_take]; omega
    rw [h1, List.take_append_drop]
  · have h1 : l.take n = l := List.take_of_length_le h
    rw [h1, List.drop_length, List.append_nil]

theorem u8_id (x : Int) (h0 : 0 ≤ x) (h1 : x < 256) : u8 x = x.toNat := by
  unfold u8
  rw [Int.emod_eq_of_lt h0 h1]

theorem reader_iteration (len : Nat) (ring : circular_buffer_t)
    (fk scratch : List Nat)
    (hWF : WF ring) (hscr : scratch.length + 1 < len) (h255 : len ≤ 255)
    (hsafe : circular_buffer_len ring + fk.length + 1 ≤ ring.len) :
    contents (usart_feed ring fk) = contents ring ++ fk ∧
    WF (usart_feed ring fk) ∧ (usart_feed ring fk).len = ring.len ∧
    (circular_buffer_read (u8 ((len : Int) - 1 - scratch.length)) (usart_feed ring fk)).1 =
      (contents ring ++ fk).take (len - 1 - scratch.length) := by
  obtain ⟨hD, hWF0, hL0⟩ := usart_feed_spec fk ring hWF (by omega)
  refine ⟨hD, hWF0, hL0, ?_⟩
  have hu8 : u8 ((len : Int) - 1 - scratch.length) = len - 1 - scratch.length := by
    rw [u8_id _ (by omega) (by omega)]
    omega
  rw [hu8, circular_buffer_read, read_val _ _ _ hWF0, hD]

theorem take_until_loop_spec (needle : List Nat) (len : Nat) (feed : Nat → List Nat)
    (hnn : noNull needle) (hne : needle ≠ [])
    (hnf : ∀ j, noNull (feed j)) (h255 : len ≤ 255) :
    ∀ (fuel k : Nat) (ring : circular_buffer_t) (scratch : List Nat)
      (ret : Nat) (ring2 : circular_buffer_t),
      WF ring → noNull (contents ring) → noNull scratch →
      scratch.length + 1 < len →
      strstrC scratch needle = none →
      take_run_safe needle len feed fuel k ring scratch = true →
      usart_recv_take_until_loop needle len feed fuel k ring scratch =
        some (ret, ring2) →
      WF ring2 ∧
      ((∃ n m, ret = m ∧
          findSub needle (scratch ++ contents ring ++ feedCat feed k n) = some m ∧
          contents ring2 =
            (scratch ++ contents ring ++ feedCat feed k n).drop (m + needle.length)) ∨
        (∃ n, ret = len - 1 ∧
          findSub needle
            ((scratch ++ contents ring ++ feedCat feed k n).take (len - 1)) = none ∧
          contents ring2 =
            (scratch ++ contents ring ++ feedCat feed k n).drop (len - 1))) := by
  intro fuel
  induction fuel with
  | zero =>
    intro k ring scratch ret ring2 _ _ _ _ _ _ hrun
    exact absurd hrun (by simp [usart_recv_take_until_loop])
  | succ fuel ih =>
    intro k ring scratch ret ring2 hWF hnnr hnns hscr hprev hsafe hrun
    simp only [take_run_safe, Bool.and_eq_true, decide_eq_true_eq] at hsafe
    obtain ⟨hsafe1, hsafeRest⟩ := hsafe
    obtain ⟨hD, hWF0, hL0, hbytes⟩ :=
      reader_iteration len ring (feed k) scratch hWF hscr h255 hsafe1
    simp only [usart_recv_take_until_loop] at hrun
    rw [hbytes] at hrun hsafeRest
    have hnnD : noNull (contents ring ++ feed k) := noNull_append _ _ hnnr (hnf k)
    have hnnbytes : noNull ((contents ring ++ feed k).take (len - 1 - scratch.length)) :=
      noNull_of_subset _ _ (List.take_subset _ _) hnnD
    have hnns1 : noNull (scratch ++
        (contents ring ++ feed k).take (len - 1 - scratch.length)) :=
      noNull_append _ _ hnns hnnbytes
    have hcv : strstrC (scratch ++
        (contents ring ++ feed k).take (len - 1 - scratch.length)) needle =
        findSub needle (scratch ++
          (contents ring ++ feed k).take (len - 1 - scratch.length)) := by
      rw [strstrC, cstr_eq_self _ hnns1, cstr_eq_self _ hnn]
    have hprev2 : findSub needle scratch = none := by
      rwa [strstrC, cstr_eq_self _ hnns, cstr_eq_self _ hnn] at hprev
    have hr_le : ((contents ring ++ feed k).take (len - 1 - scratch.length)).length ≤
        len - 1 - scratch.length := by
      rw [List.length_take]; omega
    have hE1 : scratch ++ contents ring ++ feedCat feed k 1 =
        scratch ++ (contents ring ++ feed k) := by
      have hfc : feedCat feed k 1 = feed k ++ [] := rfl
      rw [hfc, List.append_nil, List.append_assoc]
    rcases hm : strstrC (scratch ++
        (contents ring ++ feed k).take (len - 1 - scratch.length)) needle with _ | m
    · rw [hm] at hrun hsafeRest
      have hlen1 : (scratch ++
          (contents ring ++ feed k).take (len - 1 - scratch.length)).length =
          scratch.length +
            ((contents ring ++ feed k).take (len - 1 - scratch.length)).length :=
        List.length_append _ _
      have hsafe2 : (if len - 1 ≤ (scratch ++
            (contents ring ++ feed k).take (len - 1 - scratch.length)).length then true
          else take_run_safe needle len feed fuel (k + 1)
            (circular_buffer_advance
              (((contents ring ++ feed k).take (len - 1 - scratch.length)).length)
              (usart_feed ring (feed k)))
            (scratch ++ (contents ring ++ feed k).take (len - 1 - scratch.length))) =
          true := hsafeRest
      by_cases hov : len - 1 ≤ (scratch ++
          (contents ring ++ feed k).take (len - 1 - scratch.length)).length
      · rw [if_pos hov] at hrun
        simp only [Option.some.injEq, Prod.mk.injEq] at hrun
        obtain ⟨hret, hring2⟩ := hrun
        have hrM : ((contents ring ++ feed k).take (len - 1 - scratch.length)).length =
            len - 1 - scratch.length := by omega
        have htake : (scratch ++ (contents ring ++ feed k)).take
            (scratch.length + (len - 1 - scratch.length)) =
            scratch ++ (contents ring ++ feed k).take (len - 1 - scratch.length) :=
          List.take_append _
        have hdrop : (scratch ++ (contents ring ++ feed k)).drop
            (scratch.length + (len - 1 - scratch.length)) =
            (contents ring ++ feed k).drop (len - 1 - scratch.length) :=
          List.drop_append _
        rw [show scratch.length + (len - 1 - scratch.length) = len - 1 by omega]
          at htake hdrop
        refine ⟨?_, Or.inr ⟨1, ?_, ?_, ?_⟩⟩
        · rw [← hring2]; exact advance_WF _ _ hWF0
        · omega
        · rw [hE1, htake, ← hcv]
          exact hm
        · rw [hE1, ← hring2, advance_contents _ _ hWF0, hD, hrM, hdrop]
      · rw [if_neg hov] at hrun hsafe2
        push_neg at hov
        have hihyp := ih (k + 1)
          (circular_buffer_advance
            (((contents ring ++ feed k).take (len - 1 - scratch.length)).length)
            (usart_feed ring (feed k)))
          (scratch ++ (contents ring ++ feed k).take (len - 1 - scratch.length))
          ret ring2 (advance_WF _ _ hWF0)
          (by rw [advance_contents _ _ hWF0, hD]
              exact noNull_of_subset _ _ (List.drop_subset _ _) hnnD)
          hnns1 (by omega) hm hsafe2 hrun
        obtain ⟨hwf2, hcase⟩ := hihyp
        refine ⟨hwf2, ?_⟩
        have heq : ∀ n : Nat,
            (scratch ++ (contents ring ++ feed k).take (len - 1 - scratch.length)) ++
              contents (circular_buffer_advance
                (((contents ring ++ feed k).take (len - 1 - scratch.length)).length)
                (usart_feed ring (feed k))) ++ feedCat feed (k + 1) n =
            scratch ++ contents ring ++ feedCat feed k (n + 1) := by
          intro n
          rw [advance_contents _ _ hWF0, hD]
          have hfc : feedCat feed k (n + 1) = feed k ++ feedCat feed (k + 1) n := rfl
          rw [hfc]
          simp only [← List.append_assoc]
          congr 1
          rw [List.append_assoc, take_append_drop_len, ← List.append_assoc]
        rcases hcase with ⟨n, m, h1, h2, h3⟩ | ⟨n, h1, h2, h3⟩
        · exact Or.inl ⟨n + 1, m, h1, by rw [← heq n]; exact h2,
            by rw [← heq n]; exact h3⟩
        · exact Or.inr ⟨n + 1, h1, by rw [← heq n]; exact h2,
            by rw [← heq n]; exact h3⟩
    · rw [hm] at hrun
      simp only [Option.some.injEq, Prod.mk.injEq] at hrun
      obtain ⟨hret, hring2⟩ := hrun
      have hm2 : findSub needle (scratch ++
          (contents ring ++ feed k).take (len - 1 - scratch.length)) = some m := by
        rw [← hcv]; exact hm
      have hstraddle : scratch.length < m + needle.length :=
        findSub_append_lower needle scratch _ m hprev2 hm2
      have hndpos : 0 < needle.length := List.length_pos.mpr hne
      have hmbound : m + needle.length ≤ (scratch ++
          (contents ring ++ feed k).take (len - 1 - scratch.length)).length := by
        obtain ⟨hpf, _⟩ := (findSub_some_iff needle _ m).mp hm2
        have h1 := hpf.length_le
        rw [List.length_drop] at h1
        omega
      have hlen1 : (scratch ++
          (contents ring ++ feed k).take (len - 1 - scratch.length)).length =
          scratch.length +
            ((contents ring ++ feed k).take (len - 1 - scratch.length)).length :=
        List.length_append _ _
      have hstrlen : strlenC needle = needle.length := by
        rw [strlenC, cstr_eq_self _ hnn]
      have hamt : u8 ((m : Int) - scratch.length + (strlenC needle : Int)) =
          m + needle.length - scratch.length := by
        rw [hstrlen, u8_id _ (by omega) (by omega)]
        omega
      refine ⟨?_, Or.inl ⟨1, m, hret.symm, ?_, ?_⟩⟩
      · rw [← hring2]; exact advance_WF _ _ hWF0
      · rw [hE1]
        refine findSub_of_prefix needle _ _ m ?_ hm2
        exact ⟨(contents ring ++ feed k).drop
            (((contents ring ++ feed k).take (len - 1 - scratch.length)).length),
          by rw [List.append_assoc, take_append_drop_len]⟩
      · rw [hE1, ← hring2, advance_contents _ _ hWF0, hD, hamt]
        rw [show (scratch ++ (contents ring ++ feed k)).drop (m + needle.length) =
            scratch.drop (m + needle.length) ++
              (contents ring ++ feed k).drop (m + needle.length - scratch.length) from
          List.drop_append_eq_append_drop]
        rw [List.drop_eq_nil_of_le
          (show scratch.length ≤ m + needle.length by omega)]
        rw [List.nil_append]

theorem strstrC_nil_none (needle : List Nat) (hnn : noNull needle) (hne : needle ≠ []) :
    strstrC [] needle = none := by
  rw [strstrC, cstr_eq_self _ hnn]
  have hcn : cstr [] = ([] : List Nat) := rfl
  rw [hcn]
  have hnp : ¬ needle.isPrefixOf ([] : List Nat) = true := by
    rw [List.isPrefixOf_iff_prefix, List.prefix_nil]
    exact hne
  simp [findSub, hnp]

/-- Claim C7: for every call to `usart_recv_take_until_blocking` (over
zero-free data, with interrupt deliveries that never overflow the ring
— `take_run_safe`) that returns: either the needle was found, and the
call returns the byte offset `m` of the needle's *first* occurrence in
the delivered stream (the length of the useful prefix) and advances
the receive ring buffer past the entire needle — the ring afterwards
holds exactly the bytes after the needle, available for the next call
— or the scratch buffer filled without a match and the call gives up
returning the number of bytes accumulated (`len - 1`), having
consumed them. -/
theorem C7_take_until_spec (needle : List Nat) (len fuel : Nat)
    (feed : Nat → List Nat) (ring : circular_buffer_t) (ret : Nat)
    (ring2 : circular_buffer_t)
    (hWF : WF ring) (hnn : noNull needle) (hne : needle ≠ [])
    (hnnr : noNull (contents ring)) (hnf : ∀ j, noNull (feed j))
    (hlen : 2 ≤ len) (h255 : len ≤ 255)
    (hsafe : take_run_safe needle len feed fuel 0 ring [] = true)
    (hrun : usart_recv_take_until_blocking needle len feed fuel ring =
      some (ret, ring2)) :
    WF ring2 ∧
    ((∃ n m, ret = m ∧
        findSub needle (contents ring ++ feedCat feed 0 n) = some m ∧
        contents ring2 =
          (contents ring ++ feedCat feed 0 n).drop (m + needle.length)) ∨
      (∃ n, ret = len - 1 ∧
        findSub needle ((contents ring ++ feedCat feed 0 n).take (len - 1)) = none ∧
        contents ring2 = (contents ring ++ feedCat feed 0 n).drop (len - 1))) := by
  obtain ⟨hwf2, hcase⟩ := take_until_loop_spec needle len feed hnn hne hnf h255
    fuel 0 ring [] ret ring2 hWF hnnr (by intro x hx; exact absurd hx (by simp))
    (by simpa using hlen) (strstrC_nil_none needle hnn hne) hsafe hrun
  refine ⟨hwf2, ?_⟩
  rcases hcase with ⟨n, m, h1, h2, h3⟩ | ⟨n, h1, h2, h3⟩
  · rw [List.nil_append] at h2 h3
    exact Or.inl ⟨n, m, h1, h2, h3⟩
  · rw [List.nil_append] at h2 h3
    exact Or.inr ⟨n, h1, h2, h3⟩

/-- Witness for C7 at a concrete input: ring contents "gO\r\n"
(bytes [103, 79, 13, 10]), needle "\r\n", scratch size 16, no further
deliveries: the call returns prefix length 2 and consumes through the
needle, leaving the ring empty. -/
theorem C7_witness :
    WF ⟨0, 4, [103, 79, 13, 10, 0, 0, 0, 0], 8⟩ ∧
    noNull [13, 10] ∧ [13, 10] ≠ [] ∧
    noNull (contents ⟨0, 4, [103, 79, 13, 10, 0, 0, 0, 0], 8⟩) ∧
    (∀ j : Nat, noNull ((fun _ => ([] : List Nat)) j)) ∧
    (2 : Nat) ≤ 16 ∧ (16 : Nat) ≤ 255 ∧
    take_run_safe [13, 10] 16 (fun _ => []) 1 0
      ⟨0, 4, [103, 79, 13, 10, 0, 0, 0, 0], 8⟩ [] = true ∧
    usart_recv_take_until_blocking [13, 10] 16 (fun _ => []) 1
        ⟨0, 4, [103, 79, 13, 10, 0, 0, 0, 0], 8⟩ =
      some (2, ⟨4, 4, [103, 79, 13, 10, 0, 0, 0, 0], 8⟩) ∧
    (WF ⟨4, 4, [103, 79, 13, 10, 0, 0, 0, 0], 8⟩ ∧
      ((∃ n m, 2 = m ∧
          findSub [13, 10] (contents ⟨0, 4, [103, 79, 13, 10, 0, 0, 0, 0], 8⟩ ++
            feedCat (fun _ => []) 0 n) = some m ∧
          contents ⟨4, 4, [103, 79, 13, 10, 0, 0, 0, 0], 8⟩ =
            (contents ⟨0, 4, [103, 79, 13, 10, 0, 0, 0, 0], 8⟩ ++
              feedCat (fun _ => []) 0 n).drop (m + [13, 10].length)) ∨
        (∃ n, 2 = 16 - 1 ∧
          findSub [13, 10] ((contents ⟨0, 4, [103, 79, 13, 10, 0, 0, 0, 0], 8⟩ ++
            feedCat (fun _ => []) 0 n).take (16 - 1)) = none ∧
          contents ⟨4, 4, [103, 79, 13, 10, 0, 0, 0, 0], 8⟩ =
            (contents ⟨0, 4, [103, 79, 13, 10, 0, 0, 0, 0], 8⟩ ++
              feedCat (fun _ => []) 0 n).drop (16 - 1)))) :=
  ⟨by decide, by decide, by decide, by decide,
    fun _ => (by decide : noNull ([] : List Nat)), by decide, by decide,
    by decide, by decide,
    C7_take_until_spec [13, 10] 16 1 (fun _ => []) ⟨0, 4, [103, 79, 13, 10, 0, 0, 0, 0], 8⟩
      2 ⟨4, 4, [103, 79, 13, 10, 0, 0, 0, 0], 8⟩ (by decide) (by decide) (by decide)
      (by decide) (fun _ => (by decide : noNull ([] : List Nat))) (by decide) (by decide)
      (by decide) (by decide)⟩

theorem findSub_none_take_drop (nd s : List Nat) (d t : Nat)
    (h : findSub nd s = none) : findSub nd ((s.drop d).take t) = none := by
  rw [findSub_none_iff] at h ⊢
  intro j hc
  have h1 : ((s.drop d).take t).drop j = ((s.drop d).drop j).take (t - j) :=
    List.drop_take _ _ _
  rw [h1, List.drop_drop] at hc
  exact h (d + j) (hc.trans (List.take_prefix _ _))

theorem findSub_append_right (nd A B : List Nat) (m1 : Nat)
    (h : findSub nd B = some m1)
    (hhead : ∀ j, j < A.length → ¬ nd <+: (A ++ B).drop j) :
    findSub nd (A ++ B) = some (A.length + m1) := by
  rw [findSub_some_iff] at h ⊢
  obtain ⟨hpf, hmin⟩ := h
  refine ⟨?_, ?_⟩
  · rw [List.drop_append]
    exact hpf
  · intro j hj
    by_cases hja : j < A.length
    · exact hhead j hja
    · push_neg at hja
      intro hc
      have hsplit : (A ++ B).drop j = B.drop (j - A.length) := by
        rw [List.drop_append_eq_append_drop, List.drop_eq_nil_of_le hja,
          List.nil_append]
      rw [hsplit] at hc
      exact hmin (j - A.length) (by omega) hc

theorem drop_until_loop_spec (needle : List Nat) (len : Nat) (feed : Nat → List Nat)
    (hnn : noNull needle) (hne : needle ≠ [])
    (hnf : ∀ j, noNull (feed j)) (h255 : len ≤ 255)
    (hndlen : needle.length + 2 ≤ len) :
    ∀ (fuel k : Nat) (ring : circular_buffer_t) (scratch : List Nat)
      (ring2 : circular_buffer_t),
      WF ring → noNull (contents ring) → noNull scratch →
      scratch.length + 1 < len →
      strstrC scratch needle = none →
      drop_run_safe needle len feed fuel k ring scratch = true →
      usart_recv_drop_until_loop needle len feed fuel k ring scratch = some ring2 →
      WF ring2 ∧
      ∃ n m, scratch.length ≤ m ∧
        findSub needle (scratch ++ contents ring ++ feedCat feed k n) = some m ∧
        contents ring2 = (scratch ++ contents ring ++ feedCat feed k n).drop m := by
  intro fuel
  induction fuel with
  | zero =>
    intro k ring scratch ring2 _ _ _ _ _ _ hrun
    exact absurd hrun (by simp [usart_recv_drop_until_loop])
  | succ fuel ih =>
    intro k ring scratch ring2 hWF hnnr hnns hscr hprev hsafe hrun
    simp only [drop_run_safe, Bool.and_eq_true, decide_eq_true_eq] at hsafe
    obtain ⟨hsafe1, hsafeRest⟩ := hsafe
    obtain ⟨hD, hWF0, hL0, hbytes⟩ :=
      reader_iteration len ring (feed k) scratch hWF hscr h255 hsafe1
    simp only [usart_recv_drop_until_loop] at hrun
    rw [hbytes] at hrun hsafeRest
    have hnnD : noNull (contents ring ++ feed k) := noNull_append _ _ hnnr (hnf k)
    have hnnbytes : noNull ((contents ring ++ feed k).take (len - 1 - scratch.length)) :=
      noNull_of_subset _ _ (List.take_subset _ _) hnnD
    have hnns1 : noNull (scratch ++
        (contents ring ++ feed k).take (len - 1 - scratch.length)) :=
      noNull_append _ _ hnns hnnbytes
    have hcv : strstrC (scratch ++
        (contents ring ++ feed k).take (len - 1 - scratch.length)) needle =
        findSub needle (scratch ++
          (contents ring ++ feed k).take (len - 1 - scratch.length)) := by
      rw [strstrC, cstr_eq_self _ hnns1, cstr_eq_self _ hnn]
    have hprev2 : findSub needle scratch = none := by
      rwa [strstrC, cstr_eq_self _ hnns, cstr_eq_self _ hnn] at hprev
    have hr_le : ((contents ring ++ feed k).take (len - 1 - scratch.length)).length ≤
        len - 1 - scratch.length := by
      rw [List.length_take]; omega
    have hlen1 : (scratch ++
        (contents ring ++ feed k).take (len - 1 - scratch.length)).length =
        scratch.length +
          ((contents ring ++ feed k).take (len - 1 - scratch.length)).length :=
      List.length_append _ _
    have hstrlen : strlenC needle = needle.length := by
      rw [strlenC, cstr_eq_self _ hnn]
    have hndpos : 0 < needle.length := List.length_pos.mpr hne
    have hE1 : scratch ++ contents ring ++ feedCat feed k 1 =
        scratch ++ (contents ring ++ feed k) := by
      have hfc : feedCat feed k 1 = feed k ++ [] := rfl
      rw [hfc, List.append_nil, List.append_assoc]
    rcases hm : strstrC (scratch ++
        (contents ring ++ feed k).take (len - 1 - scratch.length)) needle with _ | m
    · rw [hm] at hrun hsafeRest
      have hsafe2 : drop_run_safe needle len feed fuel (k + 1)
          (circular_buffer_advance
            (((contents ring ++ feed k).take (len - 1 - scratch.length)).length)
            (usart_feed ring (feed k)))
          (if len - 1 ≤ (scratch ++
              (contents ring ++ feed k).take (len - 1 - scratch.length)).length then
            ((scratch ++
              (contents ring ++ feed k).take (len - 1 - scratch.length)).drop
                (len - 1 - strlenC needle)).take (strlenC needle)
          else scratch ++
            (contents ring ++ feed k).take (len - 1 - scratch.length)) = true :=
        hsafeRest
      have hm2 : findSub needle (scratch ++
          (contents ring ++ feed k).take (len - 1 - scratch.length)) = none := by
        rw [← hcv]; exact hm
      have hWF1 : WF (circular_buffer_advance
          (((contents ring ++ feed k).take (len - 1 - scratch.length)).length)
          (usart_feed ring (feed k))) := advance_WF _ _ hWF0
      have hnn1 : noNull (contents (circular_buffer_advance
          (((contents ring ++ feed k).take (len - 1 - scratch.length)).length)
          (usart_feed ring (feed k)))) := by
        rw [advance_contents _ _ hWF0, hD]
        exact noNull_of_subset _ _ (List.drop_subset _ _) hnnD
      have heq : ∀ n : Nat,
          (scratch ++ (contents ring ++ feed k).take (len - 1 - scratch.length)) ++
            contents (circular_buffer_advance
              (((contents ring ++ feed k).take (len - 1 - scratch.length)).length)
              (usart_feed ring (feed k))) ++ feedCat feed (k + 1) n =
          scratch ++ contents ring ++ feedCat feed k (n + 1) := by
        intro n
        rw [advance_contents _ _ hWF0, hD]
        have hfc : feedCat feed k (n + 1) = feed k ++ feedCat feed (k + 1) n := rfl
        rw [hfc]
        simp only [← List.append_assoc]
        congr 1
        rw [List.append_assoc, take_append_drop_len, ← List.append_assoc]
      by_cases hov : len - 1 ≤ (scratch ++
          (contents ring ++ feed k).take (len - 1 - scratch.length)).length
      · rw [if_pos hov] at hrun hsafe2
        have hs1len : (scratch ++
            (contents ring ++ feed k).take (len - 1 - scratch.length)).length =
            len - 1 := by omega
        have hs2sub : ∀ x, x ∈ ((scratch ++
            (contents ring ++ feed k).take (len - 1 - scratch.length)).drop
              (len - 1 - strlenC needle)).take (strlenC needle) →
            x ∈ (scratch ++
              (contents ring ++ feed k).take (len - 1 - scratch.length)) :=
          fun x hx => List.drop_subset _ _ (List.take_subset _ _ hx)
        have hnns2 : noNull (((scratch ++
            (contents ring ++ feed k).take (len - 1 - scratch.length)).drop
              (len - 1 - strlenC needle)).take (strlenC needle)) :=
          noNull_of_subset _ _ hs2sub hnns1
        have hs2len : (((scratch ++
            (contents ring ++ feed k).take (len - 1 - scratch.length)).drop
              (len - 1 - strlenC needle)).take (strlenC needle)).length =
            needle.length := by
          rw [List.length_take, List.length_drop, hs1len, hstrlen]
          omega
        obtain ⟨hwf2, n, m1, hge1, hfind1, hcont1⟩ := ih (k + 1)
          (circular_buffer_advance
            (((contents ring ++ feed k).take (len - 1 - scratch.length)).length)
            (usart_feed ring (feed k)))
          (((scratch ++
            (contents ring ++ feed k).take (len - 1 - scratch.length)).drop
              (len - 1 - strlenC needle)).take (strlenC needle))
          ring2 hWF1 hnn1 hnns2 (by rw [hs2len]; omega)
          (by rw [strstrC, cstr_eq_self _ hnns2, cstr_eq_self _ hnn]
              exact findSub_none_take_drop needle _ _ _ hm2)
          hsafe2 hrun
        refine ⟨hwf2, n + 1, ?_⟩
        have hs2eq : ((scratch ++
            (contents ring ++ feed k).take (len - 1 - scratch.length)).drop
              (len - 1 - strlenC needle)).take (strlenC needle) =
            (scratch ++
              (contents ring ++ feed k).take (len - 1 - scratch.length)).drop
                (len - 1 - strlenC needle) := by
          apply List.take_of_length_le
          rw [List.length_drop, hs1len, hstrlen]
          omega
        have hpre : (scratch ++
            (contents ring ++ feed k).take (len - 1 - scratch.length)).take
              (len - 1 - strlenC needle) ++
            ((scratch ++
              (contents ring ++ feed k).take (len - 1 - scratch.length)).drop
                (len - 1 - strlenC needle)).take (strlenC needle) =
            scratch ++
              (contents ring ++ feed k).take (len - 1 - scratch.length) := by
          rw [hs2eq, List.take_append_drop]
        have hpre_len : ((scratch ++
            (contents ring ++ feed k).take (len - 1 - scratch.length)).take
              (len - 1 - strlenC needle)).length = len - 1 - needle.length := by
          rw [List.length_take, hs1len, hstrlen]
          omega
        have hEs : scratch ++ contents ring ++ feedCat feed k (n + 1) =
            (scratch ++
              (contents ring ++ feed k).take (len - 1 - scratch.length)).take
                (len - 1 - strlenC needle) ++
              (((scratch ++
                (contents ring ++ feed k).take (len - 1 - scratch.length)).drop
                  (len - 1 - strlenC needle)).take (strlenC needle) ++
                contents (circular_buffer_advance
                  (((contents ring ++ feed k).take (len - 1 - scratch.length)).length)
                  (usart_feed ring (feed k))) ++ feedCat feed (k + 1) n) := by
          rw [← heq n]
          simp only [← List.append_assoc]
          rw [hpre]
        refine ⟨((scratch ++
            (contents ring ++ feed k).take (len - 1 - scratch.length)).take
              (len - 1 - strlenC needle)).length + m1, ?_, ?_, ?_⟩
        · rw [hpre_len]
          have := hge1
          rw [hs2len] at this
          omega
        · rw [hEs]
          apply findSub_append_right needle _ _ m1 hfind1
          intro j hj hc
          rw [hpre_len] at hj
          have hback : (scratch ++
              (contents ring ++ feed k).take (len - 1 - scratch.length)).take
                (len - 1 - strlenC needle) ++
              (((scratch ++
                (contents ring ++ feed k).take (len - 1 - scratch.length)).drop
                  (len - 1 - strlenC needle)).take (strlenC needle) ++
                contents (circular_buffer_advance
                  (((contents ring ++ feed k).take (len - 1 - scratch.length)).length)
                  (usart_feed ring (feed k))) ++ feedCat feed (k + 1) n) =
              (scratch ++
                (contents ring ++ feed k).take (len - 1 - scratch.length)) ++
                (contents (circular_buffer_advance
                  (((contents ring ++ feed k).take (len - 1 - scratch.length)).length)
                  (usart_feed ring (feed k))) ++ feedCat feed (k + 1) n) := by
            simp only [← List.append_assoc]
            rw [hpre]
          rw [hback] at hc
          have hnd_le : needle.length ≤ needle.length := le_refl _
          have hfit : j + needle.length ≤ (scratch ++
              (contents ring ++ feed k).take (len - 1 - scratch.length)).length := by
            rw [hs1len]; omega
          exact (findSub_none_iff needle _).mp hm2 j (prefix_inner needle _ _ j hfit hc)
        · rw [hEs, List.drop_append]
          exact hcont1
      · rw [if_neg hov] at hrun hsafe2
        push_neg at hov
        obtain ⟨hwf2, n, m1, hge1, hfind1, hcont1⟩ := ih (k + 1)
          (circular_buffer_advance
            (((contents ring ++ feed k).take (len - 1 - scratch.length)).length)
            (usart_feed ring (feed k)))
          (scratch ++ (contents ring ++ feed k).take (len - 1 - scratch.length))
          ring2 hWF1 hnn1 hnns1 (by omega) hm hsafe2 hrun
        refine ⟨hwf2, n + 1, m1, ?_, ?_, ?_⟩
        · omega
        · rw [← heq n]; exact hfind1
        · rw [← heq n]; exact hcont1
    · rw [hm] at hrun hsafeRest
      have hsafe2 : decide (scratch.length ≤ m) = true := hsafeRest
      rw [decide_eq_true_eq] at hsafe2
      simp only [Option.some.injEq] at hrun
      have hm2 : findSub needle (scratch ++
          (contents ring ++ feed k).take (len - 1 - scratch.length)) = some m := by
        rw [← hcv]; exact hm
      have hmbound : m + needle.length ≤ (scratch ++
          (contents ring ++ feed k).take (len - 1 - scratch.length)).length := by
        obtain ⟨hpf, _⟩ := (findSub_some_iff needle _ m).mp hm2
        have h1 := hpf.length_le
        rw [List.length_drop] at h1
        omega
      have hamt : u8 ((m : Int) - scratch.length) = m - scratch.length := by
        rw [u8_id _ (by omega) (by omega)]
        omega
      refine ⟨?_, 1, m, hsafe2, ?_, ?_⟩
      · rw [← hrun]; exact advance_WF _ _ hWF0
      · rw [hE1]
        refine findSub_of_prefix needle _ _ m ?_ hm2
        exact ⟨(contents ring ++ feed k).drop
            (((contents ring ++ feed k).take (len - 1 - scratch.length)).length),
          by rw [List.append_assoc, take_append_drop_len]⟩
      · rw [hE1, ← hrun, advance_contents _ _ hWF0, hD, hamt]
        rw [show (scratch ++ (contents ring ++ feed k)).drop m =
            scratch.drop m ++ (contents ring ++ feed k).drop (m - scratch.length) from
          List.drop_append_eq_append_drop]
        rw [List.drop_eq_nil_of_le (show scratch.length ≤ m from hsafe2)]
        rw [List.nil_append]

/-- Claim C8 (counterexample): `drop_until` does *not* consume the
needle.  (a) With ring contents "aN" (bytes [97, 78]) and needle "N",
the call returns with the ring still holding [78]: the advance stops
at the needle's *start* (the C code omits the `+ needle_len` that
`take_until` has).  (b) Worse, when the match straddles bytes already
consumed in an earlier iteration (here after a scratch-overflow
compaction: scratch size 4, needle [1, 2], stream
[9, 9, 9, 1, 2, 7]), the C advance amount
`(needle_start - recv_buf) - (total - recv_bytes)` is negative and
wraps as `uint8_t`, so the saturating advance empties the ring: the
match and the bytes after it ([7]) are lost, contradicting "the match
neither corrupted nor lost". -/
theorem C8_counterexample :
    (usart_recv_drop_until_blocking [78] 16 (fun _ => []) 1
        ⟨0, 2, [97, 78, 0, 0], 4⟩).map contents = some [78] ∧
    [78] ≠ ([] : List Nat) ∧
    (usart_recv_drop_until_blocking [1, 2] 4
        (fun k => if k = 0 then [9, 9, 9, 1, 2, 7] else []) 8
        ⟨0, 0, List.replicate 16 0, 16⟩).map contents = some [] := by
  refine ⟨by decide, by decide, by decide⟩

/-- Claim C8 (amended): `usart_recv_drop_until_blocking` discards
everything strictly *before* the needle.  For every inbound stream of
zero-free bytes whose deliveries never overflow the ring and whose
eventual match does not straddle bytes consumed in an earlier
iteration (`drop_run_safe`, which also rules out the `uint8_t`
wrap-around of case (b) above), if the call returns — including runs
with multiple scratch-compaction cycles — then the ring has been
advanced exactly to the first occurrence of the needle in the
delivered stream: the needle itself is still at the front of the ring
(not consumed), followed by every byte after it. -/
theorem C8_drop_until_spec (needle : List Nat) (len fuel : Nat)
    (feed : Nat → List Nat) (ring ring2 : circular_buffer_t)
    (hWF : WF ring) (hnn : noNull needle) (hne : needle ≠ [])
    (hnnr : noNull (contents ring)) (hnf : ∀ j, noNull (feed j))
    (hndlen : needle.length + 2 ≤ len) (h255 : len ≤ 255)
    (hsafe : drop_run_safe needle len feed fuel 0 ring [] = true)
    (hrun : usart_recv_drop_until_blocking needle len feed fuel ring = some ring2) :
    WF ring2 ∧
    ∃ n m, findSub needle (contents ring ++ feedCat feed 0 n) = some m ∧
      contents ring2 = (contents ring ++ feedCat feed 0 n).drop m ∧
      needle <+: contents ring2 := by
  have hndpos : 0 < needle.length := List.length_pos.mpr hne
  obtain ⟨hwf2, n, m, _, hfind, hcont⟩ := drop_until_loop_spec needle len feed hnn hne
    hnf h255 hndlen fuel 0 ring [] ring2 hWF hnnr
    (by intro x hx; exact absurd hx (by simp))
    (by simp only [List.length_nil]; omega)
    (strstrC_nil_none needle hnn hne) hsafe hrun
  rw [List.nil_append] at hfind hcont
  refine ⟨hwf2, n, m, hfind, hcont, ?_⟩
  obtain ⟨hpf, _⟩ := (findSub_some_iff needle _ m).mp hfind
  rw [hcont]
  exact hpf

/-- Witness for C8 (amended) at a concrete input: ring contents "aN",
needle "N": the call returns with the ring advanced to the needle's
start, contents [78]. -/
theorem C8_witness :
    WF ⟨0, 2, [97, 78, 0, 0], 4⟩ ∧ noNull [78] ∧ [78] ≠ ([] : List Nat) ∧
    noNull (contents ⟨0, 2, [97, 78, 0, 0], 4⟩) ∧
    (∀ j : Nat, noNull ((fun _ => ([] : List Nat)) j)) ∧
    [78].length + 2 ≤ 16 ∧ (16 : Nat) ≤ 255 ∧
    drop_run_safe [78] 16 (fun _ => []) 1 0 ⟨0, 2, [97, 78, 0, 0], 4⟩ [] = true ∧
    usart_recv_drop_until_blocking [78] 16 (fun _ => []) 1 ⟨0, 2, [97, 78, 0, 0], 4⟩ =
      some ⟨1, 2, [97, 78, 0, 0], 4⟩ ∧
    (WF ⟨1, 2, [97, 78, 0, 0], 4⟩ ∧
      ∃ n m, findSub [78] (contents ⟨0, 2, [97, 78, 0, 0], 4⟩ ++
          feedCat (fun _ => []) 0 n) = some m ∧
        contents ⟨1, 2, [97, 78, 0, 0], 4⟩ =
          (contents ⟨0, 2, [97, 78, 0, 0], 4⟩ ++ feedCat (fun _ => []) 0 n).drop m ∧
        [78] <+: contents ⟨1, 2, [97, 78, 0, 0], 4⟩) :=
  ⟨by decide, by decide, by decide, by decide,
    fun _ => (by decide : noNull ([] : List Nat)), by decide, by decide, by decide,
    by decide,
    C8_drop_until_spec [78] 16 1 (fun _ => []) ⟨0, 2, [97, 78, 0, 0], 4⟩
      ⟨1, 2, [97, 78, 0, 0], 4⟩ (by decide) (by decide) (by decide) (by decide)
      (fun _ => (by decide : noNull ([] : List Nat))) (by decide) (by decide)
      (by decide) (by decide)⟩
